import Mathlib

/-!
Shallow embedding of the tic-tac-toe game with time travel (src/src/App.js):
the win detector `calculateWinner`, the board interaction gate `handleClick`,
the session state machine (`handlePlay`, `jumpTo`, `xIsNext`), the status
line and the move list, together with reachability relations for the
session-level invariants.
-/

namespace TicTacToe

/-- A cell mark: "X" or "O" in the source. -/
inductive Mark : Type
  | X : Mark
  | O : Mark
  deriving DecidableEq

/-- A board cell: `null`, "X" or "O" in the source. -/
abbrev Cell : Type := Option Mark

/-- A board snapshot: the source's `squares` array (9 cells in the UI). -/
abbrev Squares : Type := List Cell

/-- The string rendered for a mark. -/
def markString : Mark → String
  | Mark.X => "X"
  | Mark.O => "O"

/-- The 8 winning triples, in the scan order of the source's `lines` array:
rows, then columns, then the two diagonals. -/
def lines : List (Nat × Nat × Nat) :=
  [(0, 1, 2), (3, 4, 5), (6, 7, 8), (0, 3, 6), (1, 4, 7), (2, 5, 8), (0, 4, 8), (2, 4, 6)]

/-- The loop body of `calculateWinner`: scan the triples in order; on the
first triple whose three cells are non-empty and identical, return that
mark.  `squares[a]` on a JS array is `undefined` (falsy) out of range,
modelled by `getD _ none`. -/
def checkLines : List (Nat × Nat × Nat) → Squares → Option Mark
  | [], _ => none
  | (a, b, c) :: rest, squares =>
    if (squares.getD a none).isSome ∧ squares.getD a none = squares.getD b none ∧
        squares.getD a none = squares.getD c none then
      squares.getD a none
    else checkLines rest squares

/-- `calculateWinner(squares)`: "X", "O", or `null`. -/
def calculateWinner (squares : Squares) : Option Mark :=
  checkLines lines squares

/-- `handleClick(i)` in `Board`: `none` models the early `return` (no call
to `onPlay`); `some s` models calling `onPlay(s)` with the copy-and-set
board `nextSquares`. -/
def handleClick (xIsNext : Bool) (squares : Squares) (i : Nat) : Option Squares :=
  if (squares.getD i none).isSome ∨ (calculateWinner squares).isSome then none
  else some (squares.set i (some (if xIsNext then Mark.X else Mark.O)))

/-- The `status` string computed in `Board`. -/
def statusLine (xIsNext : Bool) (squares : Squares) : String :=
  match calculateWinner squares with
  | some w => "Winner: " ++ markString w
  | none => "Next player: " ++ (if xIsNext then "X" else "O")

/-- The `Game` component's state: the `history` and `currentMove` hooks. -/
structure GameState : Type where
  history : List Squares
  currentMove : Nat
  deriving DecidableEq

/-- Initial state: `history = [Array(9).fill(null)]`, `currentMove = 0`. -/
def initialState : GameState :=
  { history := [List.replicate 9 none], currentMove := 0 }

/-- `xIsNext = currentMove % 2 === 0`. -/
def xIsNext (currentMove : Nat) : Bool :=
  currentMove % 2 == 0

/-- `currentSquares = history[currentMove]`. -/
def currentSquares (st : GameState) : Squares :=
  st.history.getD st.currentMove []

/-- `handlePlay(nextSquares)`: truncate history after `currentMove`,
append the new board, point at the new last index. -/
def handlePlay (st : GameState) (nextSquares : Squares) : GameState :=
  let nextHistory := st.history.take (st.currentMove + 1) ++ [nextSquares]
  { history := nextHistory, currentMove := nextHistory.length - 1 }

/-- `jumpTo(nextMove)`: set `currentMove` only. -/
def jumpTo (st : GameState) (nextMove : Nat) : GameState :=
  { st with currentMove := nextMove }

/-- The `description` of one move-list entry. -/
def moveDescription (move : Nat) : String :=
  if move > 0 then "Go to move #" ++ toString move else "Go to game start"

/-- The list of move-button labels derived from the history. -/
def moveList (history : List Squares) : List String :=
  (List.range history.length).map moveDescription

/-- A triple of cells all equal to `some m`: the condition under which the
`calculateWinner` loop returns. -/
def tripleWin (s : Squares) (t : Nat × Nat × Nat) (m : Mark) : Prop :=
  s.getD t.1 none = some m ∧ s.getD t.2.1 none = some m ∧ s.getD t.2.2 none = some m

instance (s : Squares) (t : Nat × Nat × Nat) (m : Mark) : Decidable (tripleWin s t m) := by
  unfold tripleWin; infer_instance

/-- Number of non-empty cells of a snapshot. -/
def countFilled (s : Squares) : Nat :=
  s.countP (fun c => c.isSome)

/-- Number of cells of a snapshot holding mark `m`. -/
def countMark (m : Mark) (s : Squares) : Nat :=
  s.countP (fun c => c == some m)

/-- The counting invariant for the snapshot at history index `n`. -/
def snapCounts (n : Nat) (s : Squares) : Prop :=
  countFilled s = n ∧
  countMark Mark.X s = (n + 1) / 2 ∧
  countMark Mark.O s = n / 2

/-- `s'` differs from `s` in exactly one cell: an empty cell got a mark. -/
def stepDiff (s s' : Squares) : Prop :=
  ∃ i, i < 9 ∧ s.getD i none = none ∧ ∃ m, s' = s.set i (some m)

/-- Session states reachable by `handlePlay` with arbitrary snapshots and
by `jumpTo` with in-range indices. -/
inductive Reachable : GameState → Prop
  | init : Reachable initialState
  | play (st : GameState) (snap : Squares) :
      Reachable st → Reachable (handlePlay st snap)
  | jump (st : GameState) (i : Nat) :
      Reachable st → i < st.history.length → Reachable (jumpTo st i)

/-- Session states reachable through the UI: moves go through the board's
`handleClick` gate on one of the nine cells, jumps stay in range. -/
inductive ClickReachable : GameState → Prop
  | init : ClickReachable initialState
  | click (st : GameState) (i : Nat) (s' : Squares) :
      ClickReachable st → i < 9 →
      handleClick (xIsNext st.currentMove) (currentSquares st) i = some s' →
      ClickReachable (handlePlay st s')
  | jump (st : GameState) (i : Nat) :
      ClickReachable st → i < st.history.length → ClickReachable (jumpTo st i)

/-- The history invariant maintained by UI-reachable states. -/
def histInv (st : GameState) : Prop :=
  st.currentMove < st.history.length ∧
  (∀ n, n < st.history.length →
      (st.history.getD n []).length = 9 ∧ snapCounts n (st.history.getD n [])) ∧
  (∀ n, n + 1 < st.history.length →
      stepDiff (st.history.getD n []) (st.history.getD (n + 1) []))

/-- The empty board. -/
def emptyBoard : Squares := List.replicate 9 none

/-- X on the whole top row, O below: X has won. -/
def xRowBoard : Squares :=
  [some Mark.X, some Mark.X, some Mark.X,
   some Mark.O, some Mark.O, none,
   none, none, none]

/-- Two complete uniform rows at once: X on row 0, O on row 1. -/
def doubleBoard : Squares :=
  [some Mark.X, some Mark.X, some Mark.X,
   some Mark.O, some Mark.O, some Mark.O,
   none, none, none]

/-- X alone at the centre cell. -/
def centerBoard : Squares := emptyBoard.set 4 (some Mark.X)

/-- A three-entry session pointing at its middle move. -/
def demoState : GameState :=
  { history := [emptyBoard, centerBoard, xRowBoard], currentMove := 1 }

/- ### List helper lemmas -/

theorem getD_take_lt {α : Type} (l : List α) :
    ∀ (k n : Nat) (d : α), n < k → (l.take k).getD n d = l.getD n d := by
  induction l with
  | nil => intro k n d _; simp
  | cons a t ih =>
      intro k n d h
      cases k with
      | zero => omega
      | succ k' =>
          cases n with
          | zero => simp [List.take]
          | succ n' => simpa [List.take] using ih k' n' d (by omega)

theorem getD_append_lt {α : Type} (l l' : List α) :
    ∀ (n : Nat) (d : α), n < l.length → (l ++ l').getD n d = l.getD n d := by
  induction l with
  | nil => intro n d h; simp at h
  | cons a t ih =>
      intro n d h
      cases n with
      | zero => simp
      | succ n' => simpa using ih n' d (by simpa using h)

theorem getD_append_len {α : Type} (l l' : List α) (d : α) :
    (l ++ l').getD l.length d = l'.getD 0 d := by
  induction l with
  | nil => simp
  | cons a t ih => simpa using ih

theorem getD_set_self {α : Type} (l : List α) :
    ∀ (i : Nat) (a d : α), i < l.length → (l.set i a).getD i d = a := by
  induction l with
  | nil => intro i a d h; simp at h
  | cons b t ih =>
      intro i a d h
      cases i with
      | zero => simp
      | succ i' => simpa using ih i' a d (by simpa using h)

theorem getD_set_ne {α : Type} (l : List α) :
    ∀ (i j : Nat) (a d : α), j ≠ i → (l.set i a).getD j d = l.getD j d := by
  induction l with
  | nil => intro i j a d _; simp
  | cons b t ih =>
      intro i j a d h
      cases i with
      | zero =>
          cases j with
          | zero => exact absurd rfl h
          | succ j' => simp
      | succ i' =>
          cases j with
          | zero => simp
          | succ j' => simpa using ih i' j' a d (by omega)

theorem countP_set_of_none (p : Cell → Bool) (hp : p none = false) :
    ∀ (l : Squares) (i : Nat), i < l.length → l.getD i none = none →
    ∀ v : Cell, (l.set i v).countP p = l.countP p + (if p v then 1 else 0) := by
  intro l
  induction l with
  | nil => intro i h; simp at h
  | cons c t ih =>
      intro i hi hnone v
      cases i with
      | zero =>
          simp only [List.getD_cons_zero] at hnone
          subst hnone
          simp [List.countP_cons, hp]
      | succ i' =>
          have := ih i' (by simpa using hi) (by simpa using hnone) v
          simp [List.countP_cons, this]
          omega

/- ### Win detector (claims C1 and C9) -/

theorem checkLines_some (s : Squares) :
    ∀ (L : List (Nat × Nat × Nat)) (m : Mark),
      checkLines L s = some m → ∃ t ∈ L, tripleWin s t m := by
  intro L
  induction L with
  | nil => intro m h; simp [checkLines] at h
  | cons t rest ih =>
      obtain ⟨a, b, c⟩ := t
      intro m h
      simp only [checkLines] at h
      by_cases hc : (s.getD a none).isSome ∧ s.getD a none = s.getD b none ∧
          s.getD a none = s.getD c none
      · rw [if_pos hc] at h
        have hb : s.getD b none = some m := by rw [← hc.2.1]; exact h
        have hcc : s.getD c none = some m := by rw [← hc.2.2]; exact h
        exact ⟨(a, b, c), List.mem_cons_self _ _, h, hb, hcc⟩
      · rw [if_neg hc] at h
        obtain ⟨t', ht', hw⟩ := ih m h
        exact ⟨t', List.mem_cons_of_mem _ ht', hw⟩

theorem checkLines_none (s : Squares) :
    ∀ L : List (Nat × Nat × Nat),
      checkLines L s = none → ∀ t ∈ L, ∀ m, ¬ tripleWin s t m := by
  intro L
  induction L with
  | nil => intro _ t ht; simp at ht
  | cons t rest ih =>
      obtain ⟨a, b, c⟩ := t
      intro h t' ht' m hw
      simp only [checkLines] at h
      by_cases hc : (s.getD a none).isSome ∧ s.getD a none = s.getD b none ∧
          s.getD a none = s.getD c none
      · rw [if_pos hc] at h
        rw [h] at hc
        simp at hc
      · rw [if_neg hc] at h
        rcases List.mem_cons.mp ht' with rfl | hmem
        · have h1 : s.getD a none = some m := hw.1
          have h2 : s.getD b none = some m := hw.2.1
          have h3 : s.getD c none = some m := hw.2.2
          exact hc ⟨by rw [h1]; rfl, by rw [h1, h2], by rw [h1, h3]⟩
        · exact ih h t' hmem m hw

theorem checkLines_first (s : Squares) :
    ∀ (L : List (Nat × Nat × Nat)) (i : Nat) (hi : i < L.length) (m : Mark),
      tripleWin s (L.get ⟨i, hi⟩) m →
      (∀ j (hj : j < i), ∀ m', ¬ tripleWin s (L.get ⟨j, by omega⟩) m') →
      checkLines L s = some m := by
  intro L
  induction L with
  | nil => intro i hi; simp at hi
  | cons t rest ih =>
      obtain ⟨a, b, c⟩ := t
      intro i hi m hwin hfirst
      cases i with
      | zero =>
          have h1 : s.getD a none = some m := hwin.1
          have h2 : s.getD b none = some m := hwin.2.1
          have h3 : s.getD c none = some m := hwin.2.2
          have hc : (s.getD a none).isSome ∧ s.getD a none = s.getD b none ∧
              s.getD a none = s.getD c none :=
            ⟨by rw [h1]; rfl, by rw [h1, h2], by rw [h1, h3]⟩
          simp only [checkLines, if_pos hc]
          exact h1
      | succ i' =>
          have hhead : ∀ m', ¬ tripleWin s (a, b, c) m' := fun m' hw =>
            hfirst 0 (Nat.succ_pos i') m' hw
          have hrest : checkLines rest s = some m := by
            refine ih i' (by simp only [List.length_cons] at hi; omega) m hwin ?_
            intro j hj m' hw
            exact hfirst (j + 1) (by omega) m' hw
          have hc : ¬ ((s.getD a none).isSome ∧ s.getD a none = s.getD b none ∧
              s.getD a none = s.getD c none) := by
            intro hcon
            obtain ⟨hs, hab, hac⟩ := hcon
            obtain ⟨m', hm'⟩ := Option.isSome_iff_exists.mp hs
            exact hhead m' ⟨hm', by rw [← hab]; exact hm', by rw [← hac]; exact hm'⟩
          simp only [checkLines, if_neg hc]
          exact hrest

theorem countP_set_of_none_pos (p : Cell → Bool) (hp : p none = false) (l : Squares) (i : Nat)
    (hi : i < l.length) (hnone : l.getD i none = none) (v : Cell) (hv : p v = true) :
    (l.set i v).countP p = l.countP p + 1 := by
  rw [countP_set_of_none p hp l i hi hnone v, hv]
  simp

theorem countP_set_of_none_neg (p : Cell → Bool) (hp : p none = false) (l : Squares) (i : Nat)
    (hi : i < l.length) (hnone : l.getD i none = none) (v : Cell) (hv : p v = false) :
    (l.set i v).countP p = l.countP p := by
  rw [countP_set_of_none p hp l i hi hnone v, hv]
  simp

theorem snapCounts_set (s : Squares) (n i : Nat) (m : Mark)
    (h9 : s.length = 9) (hi : i < 9) (hempty : s.getD i none = none)
    (hc : snapCounts n s)
    (hm : (n % 2 = 0 ∧ m = Mark.X) ∨ (n % 2 = 1 ∧ m = Mark.O)) :
    snapCounts (n + 1) (s.set i (some m)) := by
  obtain ⟨hf, hx, ho⟩ := hc
  have hf' : s.countP (fun c => c.isSome) = n := hf
  have hx' : s.countP (fun c => c == some Mark.X) = (n + 1) / 2 := hx
  have ho' : s.countP (fun c => c == some Mark.O) = n / 2 := ho
  have hilen : i < s.length := by omega
  have hfill := countP_set_of_none_pos (fun c => c.isSome) rfl s i hilen hempty (some m) rfl
  rcases hm with ⟨hpar, rfl⟩ | ⟨hpar, rfl⟩
  · have hxc := countP_set_of_none_pos (fun c => c == some Mark.X) (by decide) s i hilen
      hempty (some Mark.X) (by decide)
    have hoc := countP_set_of_none_neg (fun c => c == some Mark.O) (by decide) s i hilen
      hempty (some Mark.X) (by decide)
    refine ⟨?_, ?_, ?_⟩
    · show (s.set i (some Mark.X)).countP (fun c => c.isSome) = n + 1
      rw [hfill, hf']
    · show (s.set i (some Mark.X)).countP (fun c => c == some Mark.X) = (n + 1 + 1) / 2
      rw [hxc, hx']
      omega
    · show (s.set i (some Mark.X)).countP (fun c => c == some Mark.O) = (n + 1) / 2
      rw [hoc, ho']
      omega
  · have hxc := countP_set_of_none_neg (fun c => c == some Mark.X) (by decide) s i hilen
      hempty (some Mark.O) (by decide)
    have hoc := countP_set_of_none_pos (fun c => c == some Mark.O) (by decide) s i hilen
      hempty (some Mark.O) (by decide)
    refine ⟨?_, ?_, ?_⟩
    · show (s.set i (some Mark.O)).countP (fun c => c.isSome) = n + 1
      rw [hfill, hf']
    · show (s.set i (some Mark.O)).countP (fun c => c == some Mark.X) = (n + 1 + 1) / 2
      rw [hxc, hx']
      omega
    · show (s.set i (some Mark.O)).countP (fun c => c == some Mark.O) = (n + 1) / 2
      rw [hoc, ho']
      omega

theorem clickReachable_histInv (st : GameState) (h : ClickReachable st) : histInv st := by
  induction h with
  | init =>
      refine ⟨Nat.zero_lt_one, ?_, ?_⟩
      · intro n hn
        have hn1 : n < 1 := by simpa [initialState] using hn
        have hn0 : n = 0 := by omega
        subst hn0
        exact ⟨by decide, by decide, by decide, by decide⟩
      · intro n hn
        have hn1 : n + 1 < 1 := by simpa [initialState] using hn
        omega
  | click st' i s' hr hi9 hclick ih =>
      obtain ⟨hk, hall, hstep⟩ := ih
      have hguard : ¬ (((currentSquares st').getD i none).isSome ∨
          (calculateWinner (currentSquares st')).isSome) := by
        intro hcon
        unfold handleClick at hclick
        rw [if_pos hcon] at hclick
        exact Option.noConfusion hclick
      have hs' : s' = (currentSquares st').set i
          (some (if xIsNext st'.currentMove then Mark.X else Mark.O)) := by
        unfold handleClick at hclick
        rw [if_neg hguard] at hclick
        exact (Option.some.inj hclick).symm
      have hempty : (currentSquares st').getD i none = none := by
        cases hcon : (currentSquares st').getD i none with
        | none => rfl
        | some m0 => exact absurd (Or.inl (by rw [hcon]; rfl)) hguard
      have hcur := hall st'.currentMove hk
      have hcurlen : (currentSquares st').length = 9 := hcur.1
      have hcounts : snapCounts st'.currentMove (currentSquares st') := hcur.2
      have hm : (st'.currentMove % 2 = 0 ∧
            (if xIsNext st'.currentMove then Mark.X else Mark.O) = Mark.X) ∨
          (st'.currentMove % 2 = 1 ∧
            (if xIsNext st'.currentMove then Mark.X else Mark.O) = Mark.O) := by
        by_cases hxk : xIsNext st'.currentMove = true
        · exact Or.inl ⟨by simpa [xIsNext] using hxk, if_pos hxk⟩
        · refine Or.inr ⟨?_, if_neg hxk⟩
          have hne : ¬ (st'.currentMove % 2 = 0) := by simpa [xIsNext] using hxk
          omega
      have hnew : snapCounts (st'.currentMove + 1) s' := by
        rw [hs']
        exact snapCounts_set (currentSquares st') st'.currentMove i _ hcurlen hi9 hempty
          hcounts hm
      have hnewlen : s'.length = 9 := by
        rw [hs', List.length_set]
        exact hcurlen
      have htake : (st'.history.take (st'.currentMove + 1)).length = st'.currentMove + 1 := by
        rw [List.length_take]; omega
      have hH : (handlePlay st' s').history
          = st'.history.take (st'.currentMove + 1) ++ [s'] := rfl
      have hlen' : (handlePlay st' s').history.length = st'.currentMove + 2 := by
        rw [hH, List.length_append, htake, List.length_singleton]
      have hgetlt : ∀ n, n ≤ st'.currentMove →
          (handlePlay st' s').history.getD n [] = st'.history.getD n [] := by
        intro n hn
        rw [hH, getD_append_lt _ _ n [] (by rw [htake]; omega),
          getD_take_lt st'.history (st'.currentMove + 1) n [] (by omega)]
      have hgetlast : (handlePlay st' s').history.getD (st'.currentMove + 1) [] = s' := by
        have hg := getD_append_len (st'.history.take (st'.currentMove + 1)) [s'] ([] : Squares)
        rw [htake] at hg
        rw [hH, hg]
        rfl
      refine ⟨?_, ?_, ?_⟩
      · have hcm : (handlePlay st' s').currentMove = (handlePlay st' s').history.length - 1 :=
          rfl
        rw [hcm, hlen']
        omega
      · intro n hn
        rw [hlen'] at hn
        by_cases hnk : n ≤ st'.currentMove
        · rw [hgetlt n hnk]
          exact hall n (by omega)
        · have heq : n = st'.currentMove + 1 := by omega
          subst heq
          rw [hgetlast]
          exact ⟨hnewlen, hnew⟩
      · intro n hn
        rw [hlen'] at hn
        by_cases hnk : n + 1 ≤ st'.currentMove
        · rw [hgetlt n (by omega), hgetlt (n + 1) hnk]
          exact hstep n (by omega)
        · have heq : n = st'.currentMove := by omega
          subst heq
          rw [hgetlt st'.currentMove le_rfl, hgetlast]
          exact ⟨i, hi9, hempty, _, hs'⟩
  | jump st' i hr hi ih =>
      obtain ⟨h1, h2, h3⟩ := ih
      exact ⟨hi, h2, h3⟩

/- ### Claim theorems -/

/-- C1: for every 9-cell snapshot, `calculateWinner` returns a mark iff at
least one of the 8 winning triples has all three cells non-empty and equal
(and the returned mark is the mark of such a triple), and returns `none`
(`null`) exactly when no triple matches. -/
theorem calculateWinner_correct (s : Squares) (h9 : s.length = 9) :
    (∀ m, calculateWinner s = some m → ∃ t ∈ lines, tripleWin s t m) ∧
    ((∃ t ∈ lines, ∃ m, tripleWin s t m) → (calculateWinner s).isSome) ∧
    (calculateWinner s = none ↔ ∀ t ∈ lines, ∀ m, ¬ tripleWin s t m) := by
  refine ⟨fun m hm => checkLines_some s lines m hm, ?_, ?_, ?_⟩
  · rintro ⟨t, ht, m, hw⟩
    cases hcal : calculateWinner s with
    | some m' => rfl
    | none => exact absurd hw (checkLines_none s lines hcal t ht m)
  · intro hnone t ht m
    exact checkLines_none s lines hnone t ht m
  · intro hno
    cases hcal : calculateWinner s with
    | none => rfl
    | some m =>
        obtain ⟨t, ht, hw⟩ := checkLines_some s lines m hcal
        exact absurd hw (hno t ht m)

/-- Witness for C1: the top-row board has a uniform triple and a winner. -/
theorem calculateWinner_correct_witness :
    (calculateWinner xRowBoard).isSome :=
  (calculateWinner_correct xRowBoard (by decide)).2.1
    ⟨(0, 1, 2), by decide, Mark.X, by decide⟩

/-- C9: when several triples are uniform and non-empty, `calculateWinner`
returns the mark of the first matching triple in the fixed scan order of
`lines` (rows top to bottom, columns left to right, then the two
diagonals). -/
theorem calculateWinner_scan_order (s : Squares) (i : Nat) (hi : i < lines.length) (m : Mark)
    (hwin : tripleWin s (lines.get ⟨i, hi⟩) m)
    (hfirst : ∀ j (hj : j < i), ∀ m', ¬ tripleWin s (lines.get ⟨j, by omega⟩) m') :
    calculateWinner s = some m :=
  checkLines_first s lines i hi m hwin hfirst

/-- Witness for C9: with X uniform on row 0 and O uniform on row 1, the
scan returns X, the first match. -/
theorem calculateWinner_scan_order_witness :
    calculateWinner doubleBoard = some Mark.X :=
  calculateWinner_scan_order doubleBoard 0 (by decide) Mark.X (by decide)
    (fun j hj m' _ => absurd hj (Nat.not_lt_zero j))

/-- C2: `handlePlay` replaces the history by its first `currentMove + 1`
entries followed by the new snapshot and points at the new last index;
hence history length equals `currentMove + 1` right after a play, and a
play after `jumpTo k` yields length `k + 2` with the new snapshot at
index `k + 1`, whatever the prior length. -/
theorem handlePlay_spec (st : GameState) (snap : Squares) (k : Nat)
    (h : st.currentMove < st.history.length) (hk : k < st.history.length) :
    (handlePlay st snap).history = st.history.take (st.currentMove + 1) ++ [snap] ∧
    (handlePlay st snap).currentMove = st.currentMove + 1 ∧
    (handlePlay st snap).history.length = (handlePlay st snap).currentMove + 1 ∧
    (handlePlay (jumpTo st k) snap).history.length = k + 2 ∧
    (handlePlay (jumpTo st k) snap).history.getD (k + 1) [] = snap := by
  have hlen : ∀ j, j < st.history.length → (st.history.take (j + 1)).length = j + 1 := by
    intro j hj; rw [List.length_take]; omega
  refine ⟨rfl, ?_, ?_, ?_, ?_⟩
  · show (st.history.take (st.currentMove + 1) ++ [snap]).length - 1 = st.currentMove + 1
    rw [List.length_append, hlen st.currentMove h, List.length_singleton]
    omega
  · show (st.history.take (st.currentMove + 1) ++ [snap]).length
      = (st.history.take (st.currentMove + 1) ++ [snap]).length - 1 + 1
    rw [List.length_append, hlen st.currentMove h, List.length_singleton]
    omega
  · show (st.history.take (k + 1) ++ [snap]).length = k + 2
    rw [List.length_append, hlen k hk, List.length_singleton]
  · show (st.history.take (k + 1) ++ [snap]).getD (k + 1) [] = snap
    have hget := getD_append_len (st.history.take (k + 1)) [snap] ([] : Squares)
    rw [hlen k hk] at hget
    rw [hget]
    rfl

/-- Witness for C2: a play from the middle of a three-entry history
truncates the last entry, appends the new board, and points at index 2. -/
theorem handlePlay_spec_witness :
    (handlePlay demoState doubleBoard).history
        = demoState.history.take 2 ++ [doubleBoard] ∧
    (handlePlay demoState doubleBoard).currentMove = 2 := by
  have h := handlePlay_spec demoState doubleBoard 1 (by decide) (by decide)
  exact ⟨h.1, h.2.1⟩

/-- C3: a click on cell `i` is a no-op (the `onPlay` callback is not
invoked) when the cell is occupied or the current snapshot already has a
winner. -/
theorem handleClick_noop (x : Bool) (s : Squares) (i : Nat) (hi : i < 9)
    (h : s.getD i none ≠ none ∨ (calculateWinner s).isSome) :
    handleClick x s i = none := by
  have hcond : (s.getD i none).isSome ∨ (calculateWinner s).isSome := by
    rcases h with h | h
    · exact Or.inl (Option.isSome_iff_ne_none.mpr h)
    · exact Or.inr h
  unfold handleClick
  rw [if_pos hcond]

/-- Witness for C3: cell 5 of the won top-row board is empty, yet the
click is rejected. -/
theorem handleClick_noop_witness :
    handleClick true xRowBoard 5 = none :=
  handleClick_noop true xRowBoard 5 (by decide) (Or.inr (by decide))

/-- C4: a click on an empty cell of an undecided snapshot invokes the
callback with the copy-and-set snapshot: cell `i` now holds the mark of
the turn flag, every other cell is unchanged, and the original snapshot is
untouched (the result is built by `set` on a copy). -/
theorem handleClick_move (x : Bool) (s : Squares) (i : Nat) (h9 : s.length = 9) (hi : i < 9)
    (hempty : s.getD i none = none) (hwin : calculateWinner s = none) :
    handleClick x s i = some (s.set i (some (if x then Mark.X else Mark.O))) ∧
    (s.set i (some (if x then Mark.X else Mark.O))).getD i none
      = some (if x then Mark.X else Mark.O) ∧
    (∀ j, j ≠ i → (s.set i (some (if x then Mark.X else Mark.O))).getD j none
      = s.getD j none) := by
  have hcond : ¬ ((s.getD i none).isSome ∨ (calculateWinner s).isSome) := by
    rintro (h | h)
    · rw [hempty] at h; simp at h
    · rw [hwin] at h; simp at h
  refine ⟨?_, ?_, ?_⟩
  · unfold handleClick
    rw [if_neg hcond]
  · exact getD_set_self s i _ none (by omega)
  · intro j hj
    exact getD_set_ne s i j _ none hj

/-- Witness for C4: X clicking the centre of the empty board yields the
centre board. -/
theorem handleClick_move_witness :
    handleClick true emptyBoard 4 = some centerBoard :=
  (handleClick_move true emptyBoard 4 (by decide) (by decide) (by decide) (by decide)).1

/-- C5: `jumpTo` with an in-range index sets the current move index and
leaves the history — and hence the derived move list — unchanged. -/
theorem jumpTo_spec (st : GameState) (i : Nat) (hi : i < st.history.length) :
    (jumpTo st i).currentMove = i ∧
    (jumpTo st i).history = st.history ∧
    moveList (jumpTo st i).history = moveList st.history :=
  ⟨rfl, rfl, rfl⟩

/-- Witness for C5: jumping to the start of a two-entry history keeps both
entries. -/
theorem jumpTo_spec_witness :
    (jumpTo { history := [emptyBoard, centerBoard], currentMove := 1 } 0).history
      = [emptyBoard, centerBoard] :=
  (jumpTo_spec { history := [emptyBoard, centerBoard], currentMove := 1 } 0 (by decide)).2.1

/-- C6: the `xIsNext` flag designates X (mark-A) as next exactly when the
current move index is even, and O otherwise. -/
theorem xIsNext_parity (n : Nat) :
    (xIsNext n = true ↔ Even n) ∧ (xIsNext n = false ↔ ¬ Even n) := by
  constructor
  · simp [xIsNext, Nat.even_iff]
  · simp [xIsNext, Nat.even_iff]

/-- C7: the status line reads "Winner: <mark>" when the win detector
reports a winner, else "Next player: <mark>" with the mark of the turn
flag. -/
theorem statusLine_spec (x : Bool) (s : Squares) :
    (∀ w, calculateWinner s = some w → statusLine x s = "Winner: " ++ markString w) ∧
    (calculateWinner s = none →
      statusLine x s = "Next player: " ++ markString (if x then Mark.X else Mark.O)) := by
  constructor
  · intro w hw
    simp only [statusLine, hw]
  · intro hn
    simp only [statusLine, hn]
    cases x <;> rfl

/-- Witness for C7: a won board shows the winner, the empty board shows
the next player. -/
theorem statusLine_spec_witness :
    statusLine true xRowBoard = "Winner: X" ∧
    statusLine false emptyBoard = "Next player: O" := by
  constructor
  · rw [(statusLine_spec true xRowBoard).1 Mark.X (by decide)]
    decide
  · rw [(statusLine_spec false emptyBoard).2 (by decide)]
    decide

/-- C8: in every state reachable from the initial session by plays and
in-range jumps, the current move index stays within the history, so the
displayed snapshot `history[currentMove]` exists. -/
theorem reachable_currentMove_lt (st : GameState) (h : Reachable st) :
    st.currentMove < st.history.length ∧
    (st.history.getD st.currentMove []) ∈ st.history := by
  have hlt : st.currentMove < st.history.length := by
    induction h with
    | init => decide
    | play st' snap hr ih =>
        show (st'.history.take (st'.currentMove + 1) ++ [snap]).length - 1
          < (st'.history.take (st'.currentMove + 1) ++ [snap]).length
        rw [List.length_append, List.length_singleton]
        omega
    | jump st' i hr hi ih => exact hi
  refine ⟨hlt, ?_⟩
  rw [List.getD_eq_getElem st.history [] hlt]
  exact List.getElem_mem hlt

/-- Witness for C8: after one play from the initial state the index 1 is
within the two-entry history. -/
theorem reachable_currentMove_lt_witness :
    (handlePlay initialState centerBoard).currentMove
      < (handlePlay initialState centerBoard).history.length :=
  (reachable_currentMove_lt _ (Reachable.play initialState centerBoard Reachable.init)).1

/-- C10: in every state reachable through the board's click gate and
in-range jumps, the snapshot at history index `n` holds exactly `n` marks —
`⌈n/2⌉` X's and `⌊n/2⌋` O's — and each history entry extends its
predecessor by exactly one mark placed on an empty cell. -/
theorem clickReachable_history_shape (st : GameState) (h : ClickReachable st) :
    (∀ n, n < st.history.length →
        countFilled (st.history.getD n []) = n ∧
        countMark Mark.X (st.history.getD n []) = (n + 1) / 2 ∧
        countMark Mark.O (st.history.getD n []) = n / 2) ∧
    (∀ n, n + 1 < st.history.length →
        stepDiff (st.history.getD n []) (st.history.getD (n + 1) [])) := by
  obtain ⟨-, hall, hstep⟩ := clickReachable_histInv st h
  exact ⟨fun n hn => (hall n hn).2, hstep⟩

/-- Witness for C10: after X clicks the centre of the initial board, the
entry at index 1 holds exactly one mark, an X. -/
theorem clickReachable_history_shape_witness :
    countFilled ((handlePlay initialState centerBoard).history.getD 1 []) = 1 ∧
    countMark Mark.X ((handlePlay initialState centerBoard).history.getD 1 []) = 1 := by
  have hre : ClickReachable (handlePlay initialState centerBoard) :=
    ClickReachable.click initialState 4 centerBoard ClickReachable.init (by decide) (by decide)
  have h := clickReachable_history_shape (handlePlay initialState centerBoard) hre
  have hlen : 1 < (handlePlay initialState centerBoard).history.length := by decide
  exact ⟨(h.1 1 hlen).1, (h.1 1 hlen).2.1⟩

end TicTacToe
